import Mathlib

/-!
Verification of the call-site resolution/compilation engine of
`NiagaraNodeFunctionCall.cpp` (UNiagaraNodeFunctionCall) against its
natural-language specification.

The embedding is shallow: each C++ routine that the claims touch is
translated into an executable Lean function over explicit state.
Niagara variables (`FNiagaraVariable`) are modelled as name/type pairs;
`FNiagaraVariable::IsEquivalent` (name plus type equality) is modelled
as structural equality on that pair.  `TArray<int32>& Inputs` entries
are modelled by an inductive with one constructor per way the source
produces an entry (`Translator->CompilePin`, `Translator->GetConstant`,
`INDEX_NONE`).  Translator diagnostics are modelled as values carrying
the same data the source attaches to them.
-/

namespace NiagaraFunctionCall

/-- A Niagara variable: a name together with a type
(`FNiagaraVariable`).  `IsEquivalent` is name+type equality, modelled
as structural equality. -/
structure NVar where
  name : String
  ty : String
deriving DecidableEq, Repr

/-- Where a caller pin's single incoming link points
(`UEdGraphPin::LinkedTo[0]` after `UNiagaraNode::TraceOutputPin`).
`upstream` is an ordinary producer already present in the caller graph;
`autoNode` is the output pin of a `UNiagaraNodeInput` synthesized by the
auto-bind branch of `Compile`. -/
inductive LinkTarget where
  | upstream (idx : Nat)
  | autoNode (v : NVar) (usage : Nat)
deriving DecidableEq, Repr

/-- A caller-side input pin of the function call node (`UEdGraphPin`):
its Niagara variable, its (at most one) traced incoming link, and
`bDefaultValueIsIgnored`. -/
structure Pin where
  var : NVar
  linkedTo : Option LinkTarget
  defaultValueIsIgnored : Bool
deriving DecidableEq, Repr

/-- The subset of `ENiagaraInputNodeUsage` used by auto binding. -/
inductive InputUsage where
  | attribute
  | systemConstant
deriving DecidableEq, Repr

/-- A function input node of the callee graph (`UNiagaraNodeInput`)
as seen by `Compile`: its variable, `IsExposed()`,
`ExposureOptions.bRequired` (also the value of `IsRequired()`), and
`CanAutoBind()`. -/
structure InputNode where
  input : NVar
  exposed : Bool
  required : Bool
  canAutoBind : Bool
deriving DecidableEq, Repr

/-- One entry of the `Inputs` array handed to
`Translator->FunctionCall`.  `pinHandle p` stands for the handle
returned by `Translator->CompilePin` on pin `p` (deterministic in the
pin), `constHandle v` for `Translator->GetConstant(v)`, and `indexNone`
for `INDEX_NONE`. -/
inductive IEntry where
  | pinHandle (p : Pin)
  | constHandle (v : NVar)
  | indexNone
deriving DecidableEq, Repr

/-- A diagnostic reported through the translator.  Each constructor
carries the data the source attaches to the corresponding
`Translator->Error` / `Translator->Warning` call. -/
inductive Diag where
  | deprecationWarning
  | staleFunctionCall
  | requiredInputUnbound (slot : Pin)
  | unknownFunctionCall (stackName : String)
  | validationError (msg : String)
deriving DecidableEq, Repr

/-- The caller-script context consulted by `FindAutoBoundInput`:
the `ParticleSpawnScript` / `ParticleUpdateScript` output nodes of the
caller graph (each `some outs` when `FindOutputNode` succeeds, carrying
that node's `Outputs` array) and the engine system-constant registry
(`FNiagaraConstants::GetEngineConstants`). -/
structure AutoBindCtx where
  spawnOutputs : Option (List NVar)
  updateOutputs : Option (List NVar)
  sysConstants : List NVar
deriving Repr

/-- Mutable caller-graph state threaded through `Compile`: the caller
input pins and the list of `UNiagaraNodeInput` nodes synthesized by
auto binding (`NewObject<UNiagaraNodeInput>(CallerGraph)`). -/
structure GraphSt where
  pins : List Pin
  newNodes : List (NVar × Nat)
deriving DecidableEq, Repr

/-- Finds the first caller pin whose variable is equivalent to `v`
(`CallerInputPins.FindByPredicate` with
`PinToNiagaraVariable(InPin).IsEquivalent(...)`). -/
def findPin : List Pin → NVar → Option Pin
  | [], _ => none
  | p :: ps, v => if p.var = v then some p else findPin ps v

/-- Sets the link of the first pin whose variable is `v`
(`CallerPin->BreakAllPinLinks(); CallerPin->MakeLinkTo(...)`). -/
def setLink : List Pin → NVar → LinkTarget → List Pin
  | [], _, _ => []
  | p :: ps, v, t =>
    if p.var = v then { p with linkedTo := some t } :: ps
    else p :: setLink ps v t

/-- Encoding of `ENiagaraInputNodeUsage::Attribute` and
`::SystemConstant` as the `usage` field stored on a synthesized node. -/
def usageCode : InputUsage → Nat
  | .attribute => 0
  | .systemConstant => 1

/-- The attribute half of `FindAutoBoundInput`: the outputs of the
caller's spawn output node are searched when a spawn node exists
(`CallerOutputNodeSpawn != nullptr ? CallerOutputNodeSpawn :
CallerOutputNodeUpdate`); the update node's outputs are searched only
when no spawn node exists. -/
def attrLookup (ctx : AutoBindCtx) (pinVar : NVar) : Option NVar :=
  match ctx.spawnOutputs, ctx.updateOutputs with
  | some outs, _ => outs.find? (fun a => pinVar = a)
  | none, some outs => outs.find? (fun a => pinVar = a)
  | none, none => none

/-- Shallow embedding of `UNiagaraNodeFunctionCall::FindAutoBoundInput`.
Fails when the pin is already linked or the input node cannot auto
bind; otherwise searches the caller's spawn output node's attributes
(falling back to the update output node only when no spawn node
exists) for a variable equivalent to the pin's, binding as
`Attribute`; only when no attribute matches does it consult the engine
system-constant registry, binding as `SystemConstant`; otherwise
fails. -/
def findAutoBoundInput (ctx : AutoBindCtx) (node : InputNode) (pin : Pin) :
    Option (NVar × InputUsage) :=
  if pin.linkedTo.isSome || !node.canAutoBind then none
  else
    match attrLookup ctx pin.var with
    | some a => some (a, InputUsage.attribute)
    | none =>
      if ctx.sysConstants.contains pin.var then
        some (pin.var, InputUsage.systemConstant)
      else none

/-- Result of resolving one declared input inside `Compile`: the
`Inputs` entry added, the diagnostics reported, the contribution to
`bError`, and the (possibly mutated) caller graph. -/
structure StepRes where
  entry : IEntry
  diags : List Diag
  err : Bool
  g : GraphSt
deriving DecidableEq, Repr

/-- Shallow embedding of the per-input body of the
`for (UNiagaraNodeInput* FunctionInputNode : FunctionInputNodes)` loop
of `UNiagaraNodeFunctionCall::Compile` (the graph-backed branch).
Mirrors the source exactly: missing pin splits on exposed / required;
an unlinked pin first attempts auto binding, which synthesizes an
input node in the caller graph and links the pin to it; a linked pin
compiles the pin; an unlinked, unbindable pin splits on required and
`bDefaultValueIsIgnored`. -/
def processInput (ctx : AutoBindCtx) (node : InputNode) (g : GraphSt) : StepRes :=
  match findPin g.pins node.input with
  | none =>
    if node.exposed then
      -- stale function call node: error, then Inputs.Add(INDEX_NONE)
      ⟨IEntry.indexNone, [Diag.staleFunctionCall], true, g⟩
    else if node.required then
      -- not exposed but required: add the default as a compiled constant
      ⟨IEntry.constHandle node.input, [], false, g⟩
    else
      ⟨IEntry.indexNone, [], false, g⟩
  | some pin =>
    match pin.linkedTo with
    | some _ =>
      -- param provided by the caller; compile the pin
      ⟨IEntry.pinHandle pin, [], false, g⟩
    | none =>
      match findAutoBoundInput ctx node pin with
      | some (_, usage) =>
        -- synthesize an input node (NewNode->Input = PinVar), link the
        -- pin to its output pin, then compile the (now linked) pin
        let tgt := LinkTarget.autoNode pin.var (usageCode usage)
        let pin' : Pin := { pin with linkedTo := some tgt }
        let g' : GraphSt :=
          { pins := setLink g.pins node.input tgt
            newNodes := g.newNodes ++ [(pin.var, usageCode usage)] }
        ⟨IEntry.pinHandle pin', [], false, g'⟩
      | none =>
        if node.required then
          if pin.defaultValueIsIgnored then
            ⟨IEntry.indexNone, [Diag.requiredInputUnbound pin], true, g⟩
          else
            ⟨IEntry.pinHandle pin, [], false, g⟩
        else
          ⟨IEntry.indexNone, [], false, g⟩

/-- Accumulated result of the whole input-resolution loop. -/
structure RunRes where
  entries : List IEntry
  diags : List Diag
  err : Bool
  g : GraphSt
deriving DecidableEq, Repr

/-- The input-resolution loop of `Compile`: processes every function
input node in declaration order, accumulating entries, diagnostics and
the `bError` flag while threading the caller graph. -/
def runInputs (ctx : AutoBindCtx) : List InputNode → GraphSt → RunRes
  | [], g => ⟨[], [], false, g⟩
  | n :: ns, g =>
    let s := processInput ctx n g
    let r := runInputs ctx ns s.g
    ⟨s.entry :: r.entries, s.diags ++ r.diags, s.err || r.err, r.g⟩

/-- The graph-backed callable as `Compile` sees it: the
`bDeprecated` flag of the `UNiagaraScript` and the function input
nodes returned by `FunctionGraph->FindInputNodes` with `bSort` and
`bFilterDuplicates` set. -/
structure ScriptModel where
  deprecated : Bool
  inputNodes : List InputNode
deriving Repr

/-- The signature-backed callable (`FNiagaraFunctionSignature`) as
`Compile` sees it.  The outcomes of the two external collaborators the
signature branch consults are carried as data:
`validationErrors` is what `UNiagaraDataInterface::ValidateFunction`
reported (empty when the signature has no data-interface first input
or validation is disabled), and `pinCompileError` is the Boolean
result of `UNiagaraNode::CompileInputPins`. -/
structure SigModel where
  validationErrors : List String
  pinCompileError : Bool
  sigEntries : List IEntry
deriving Repr

/-- The three-way dispatch state of a call site: `FunctionScript` set,
else `Signature.IsValid()`, else neither (unresolved). -/
inductive Callable where
  | script (s : ScriptModel)
  | sig (s : SigModel)
  | unresolved
deriving Repr

/-- Result of `UNiagaraNodeFunctionCall::Compile`: the diagnostics
reported through the translator, whether
`Translator->FunctionCall(this, Inputs, Outputs)` was invoked, the
`Inputs` array passed to it, and the caller graph afterwards. -/
structure CompileRes where
  diags : List Diag
  emitted : Bool
  inputs : List IEntry
  g : GraphSt
deriving Repr

/-- Shallow embedding of `UNiagaraNodeFunctionCall::Compile`.
Dispatches on the callable: graph-backed call sites run the input
resolution loop (after an optional deprecation warning); valid
signatures run data-interface validation (early return on failure)
then compile their pins; a call site with neither reports the
"Unknown Function Call" error.  `Translator->FunctionCall` is invoked
exactly when `bError` stayed false. -/
def compileNode (ctx : AutoBindCtx) (c : Callable) (enabled : Bool)
    (fnName : String) (g : GraphSt) : CompileRes :=
  match c with
  | .script s =>
    let warn : List Diag :=
      if s.deprecated && enabled then [Diag.deprecationWarning] else []
    let r := runInputs ctx s.inputNodes g
    ⟨warn ++ r.diags, !r.err, r.entries, r.g⟩
  | .sig s =>
    if s.validationErrors.isEmpty then
      let err := s.pinCompileError
      ⟨[], !err, s.sigEntries, g⟩
    else
      -- validation failed: report every error and return before emission
      ⟨s.validationErrors.map Diag.validationError, false, [], g⟩
  | .unresolved =>
    ⟨[Diag.unknownFunctionCall fnName], false, [], g⟩

/-! ### Cycle detection: `UNiagaraNodeFunctionCall::CanAddToGraph` -/

/-- The target graph a node is about to be spawned into: its
containing package (`GetOutermost`, `none` when null) and its node
content, carried only to express that the check mutates nothing. -/
structure TargetGraph where
  package : Option Nat
  nodes : List Nat
deriving DecidableEq, Repr

/-- One breadth step of reference-closure collection: appends every
graph referenced by a graph already in `acc`, skipping those already
collected. -/
def expandRefs (refsFn : Nat → List Nat) (acc : List Nat) : List Nat :=
  acc.foldl (fun a g =>
    (refsFn g).foldl (fun a2 h => if a2.contains h then a2 else a2 ++ [h]) a) acc

/-- Modelled from the spec: `UNiagaraGraph::GetAllReferencedGraphs` is
not under `src/`; per the specification the cycle check must "compute
the set of all graphs transitively referenced by the callable
(including itself)".  Modelled as a fuel-bounded closure of the
graph-reference relation seeded with the callable's own graph. -/
def getAllReferencedGraphs (refsFn : Nat → List Nat) : Nat → Nat → List Nat
  | 0, g => [g]
  | fuel + 1, g => expandRefs refsFn (getAllReferencedGraphs refsFn fuel g)

/-- Shallow embedding of `UNiagaraNodeFunctionCall::CanAddToGraph`.
`superOk` is the result of `Super::CanAddToGraph`; `graphPackages`
are the `GetOutermost` packages of the graphs referenced by the
spawning function script.  Returns the decision, the error message
choice, and the target graph (returned unchanged: the source method is
`const` and performs no structural mutation). -/
def canAddToGraph (superOk : Bool) (graphPackages : List (Option Nat))
    (target : TargetGraph) : (Bool × Bool) × TargetGraph :=
  if !superOk then ((false, false), target)
  else if graphPackages.any (fun fp =>
      match fp, target.package with
      | some a, some b => a = b
      | _, _ => false) then
    -- "Cannot add to graph because the Function Call used by this
    -- node would lead to a cycle."
    ((false, true), target)
  else ((true, false), target)

/-- `CanAddToGraph` with the referenced-graph collection spliced in:
packages of the transitive closure of the callable's graph. -/
def canAddToGraphFull (superOk : Bool) (refsFn : Nat → List Nat)
    (pkg : Nat → Option Nat) (fuel : Nat) (callableGraph : Nat)
    (target : TargetGraph) : (Bool × Bool) × TargetGraph :=
  canAddToGraph superOk
    ((getAllReferencedGraphs refsFn fuel callableGraph).map pkg) target

/-! ### Dependency hash aggregation:
`UNiagaraNodeFunctionCall::GatherExternalDependencyData` -/

/-- One aggregated dependency: the compile hash added to
`InReferencedCompileHashes` paired with the graph path added to
`InReferencedObjs` (the two arrays are appended in lockstep). -/
structure DepEntry where
  hash : Nat
  path : String
deriving DecidableEq, Repr

/-- A callee graph as the aggregator sees it: its `GetPathName`, which
usage kinds have a valid base id and compile hash
(`GetBaseId` / `GetCompileDataHash` both valid), the hash per usage,
and the function scripts of the call nodes inside it (the graphs its
own aggregation recurses into; `none` for a call node with no
script). -/
structure DepGraphInfo where
  path : String
  valid : Nat → Bool
  hash : Nat → Nat
  calls : List (Option Nat)

/-- Merges new entries into an accumulated sequence, deduplicating by
identity path with first occurrence winning. -/
def mergeDedupPath (acc new : List DepEntry) : List DepEntry :=
  new.foldl (fun a e => if a.any (fun x => x.path = e.path) then a else a ++ [e]) acc

/-- The usage kinds probed by the aggregator:
`ENiagaraScriptUsage::Function` (0) through `::DynamicInput` (2). -/
def depUsages : List Nat := [0, 1, 2]

/-- Modelled from the spec: `UNiagaraGraph::GatherExternalDependencyData`
is not under `src/`; per specification section 4.7 the graph-level
aggregator merges each call node's contribution "into a single
ordered-but-deduplicated sequence (dedupe by identity-path; first
occurrence wins for ordering)".  `nodeG` is the node-level gather at
the remaining recursion depth. -/
def graphGatherDeps (F : Nat → DepGraphInfo)
    (nodeG : Option Nat → List DepEntry → List DepEntry)
    (g : Nat) (acc : List DepEntry) : List DepEntry :=
  (F g).calls.foldl (fun a c => mergeDedupPath a (nodeG c [])) acc

/-- Shallow embedding of
`UNiagaraNodeFunctionCall::GatherExternalDependencyData`: with no
function script nothing is added; otherwise, for each usage kind from
`Function` to `DynamicInput` whose base id and compile hash are valid,
the graph's hash and path are appended and the graph-level aggregation
recurses.  Fuel bounds the recursion depth (reference cycles are
structurally prevented by `CanAddToGraph`). -/
def nodeGatherDeps (F : Nat → DepGraphInfo) :
    Nat → Option Nat → List DepEntry → List DepEntry
  | _, none, acc => acc
  | 0, some _, acc => acc
  | fuel + 1, some g, acc =>
    depUsages.foldl (fun a u =>
      if (F g).valid u then
        graphGatherDeps F (nodeGatherDeps F fuel) g
          (a ++ [⟨(F g).hash u, (F g).path⟩])
      else a) acc

/-- A diamond dependency forest: callable graph `A` (index 0)
references `B` (1) and `C` (2), each of which references `D` (3);
every graph is valid for the `Function` usage only, with the given
compile hashes. -/
def diamondDeps (hA hB hC hD : Nat) : Nat → DepGraphInfo := fun n =>
  if n = 0 then ⟨"A", fun u => u == 0, fun _ => hA, [some 1, some 2]⟩
  else if n = 1 then ⟨"B", fun u => u == 0, fun _ => hB, [some 3]⟩
  else if n = 2 then ⟨"C", fun u => u == 0, fun _ => hC, [some 3]⟩
  else ⟨"D", fun u => u == 0, fun _ => hD, []⟩

/-! ### Static-switch propagation cleanup:
`UNiagaraNodeFunctionCall::RefreshFromExternalChanges` /
`CleanupPropagatedSwitchValues` -/

/-- A static-switch pin on the call node: its name and
`bDefaultValueIsIgnored`. -/
structure SwitchPin where
  name : String
  defaultValueIsIgnored : Bool
deriving DecidableEq, Repr

/-- Shallow embedding of
`UNiagaraNodeFunctionCall::IsValidPropagatedVariable`: the variable is
valid when it occurs (name and type) in the called graph's static
switch inputs. -/
def isValidPropagatedVariable (switchInputs : List NVar) (v : NVar) : Bool :=
  switchInputs.contains v

/-- Shallow embedding of
`UNiagaraNodeFunctionCall::CleanupPropagatedSwitchValues`: removes
every propagated entry whose name is `NAME_None` (modelled as the
empty string) or which is no longer a valid switch on the called
graph.  The source's reverse-index `RemoveAt` loop is an
order-preserving filter. -/
def cleanupPropagatedSwitchValues (switchInputs : List NVar)
    (props : List NVar) : List NVar :=
  props.filter (fun p => !(p.name = "" || !isValidPropagatedVariable switchInputs p))

/-- Shallow embedding of
`UNiagaraNodeFunctionCall::FindPropagatedVariable` reduced to whether
a propagated entry equal to the variable exists. -/
def findPropagatedVariable (props : List NVar) (v : NVar) : Bool :=
  props.contains v

/-- Updates the first pin with the given name to the given
`bDefaultValueIsIgnored` value (the inner `for (UEdGraphPin* Pin ...)`
loop with its `break`). -/
def setFlagFirst (nm : String) (b : Bool) : List SwitchPin → List SwitchPin
  | [] => []
  | p :: ps =>
    if p.name = nm then { p with defaultValueIsIgnored := b } :: ps
    else p :: setFlagFirst nm b ps

/-- Finds the first pin with the given name. -/
def findSwitchPin (nm : String) : List SwitchPin → Option SwitchPin
  | [] => none
  | p :: ps => if p.name = nm then some p else findSwitchPin nm ps

/-- Shallow embedding of the static-switch portion of
`UNiagaraNodeFunctionCall::RefreshFromExternalChanges` (the fragment
guarded by `GetCalledGraph() != nullptr`): first
`CleanupPropagatedSwitchValues`, then for every static switch input of
the called graph the first pin with a matching name gets
`bDefaultValueIsIgnored = FindPropagatedVariable(InputVar) != nullptr`.
The fragment reports no diagnostic (stale propagation is silently
discarded). -/
def refreshSwitchFragment (switchInputs : List NVar) (props : List NVar)
    (pins : List SwitchPin) : List NVar × List SwitchPin :=
  let props2 := cleanupPropagatedSwitchValues switchInputs props
  (props2,
    switchInputs.foldl
      (fun ps v => setFlagFirst v.name (findPropagatedVariable props2 v) ps) pins)

/-! ### Scoped history traversal:
`UNiagaraNodeFunctionCall::BuildParameterMapHistory` -/

/-- Events emitted against the `FNiagaraParameterMapHistoryBuilder`,
tagged with the emitting call site's identity. -/
inductive HEvent where
  | enterFunction (id : Nat)
  | beginNodeVisit (id : Nat)
  | endNodeVisit (id : Nat)
  | exitFunction (id : Nat)
  | registerPin (id : Nat) (slot : NVar)
  | routeAround (id : Nat)
deriving DecidableEq, Repr

/-- An output pin of the callee graph's output node as seen when
matching pairs: its variable and whether it has an incoming link. -/
structure ChildPin where
  var : NVar
  linked : Bool
deriving DecidableEq, Repr

/-- The distinguished parameter-map type
(`FNiagaraTypeDefinition::GetParameterMapDef`). -/
def paramMapTy : String := "NiagaraParameterMap"

/-- The pairing loop of `BuildParameterMapHistory`: every linked,
parameter-map-typed pin of the callee output node is matched by
name+type equivalence against the caller-facing output pins; each
match produces one pairing to register. -/
def matchedOutputPairs (childPins : List ChildPin) (outputPins : List NVar) :
    List NVar :=
  childPins.foldl (fun acc cp =>
    if cp.linked && cp.var.ty = paramMapTy then
      acc ++ outputPins.filter (fun ov => ov = cp.var)
    else acc) []

/-- A call site as `BuildParameterMapHistory` sees it: its identity,
enabled state, whether it has a function script, whether its first
input pin is a linked parameter-map pin (so a node visitation is
opened), the callee output node's pins, and its own output pins. -/
structure PMHCallSite where
  id : Nat
  enabled : Bool
  hasScript : Bool
  sigRequiresRoute : Bool
  paramMapPinLinked : Bool
  childOutputPins : List ChildPin
  outputPins : List NVar
deriving Repr

/-- Shallow embedding of
`UNiagaraNodeFunctionCall::BuildParameterMapHistory` for the
graph-backed case as the trace of builder events it emits.
`childEvents` is the trace produced by the recursive
`OutputNode->BuildParameterMapHistory` call.  A disabled call site
(when the builder ignores disabled nodes) is routed around; otherwise
the builder enters the function scope, optionally opens a node
visitation, recurses, closes the visitation, exits the function scope,
and only then registers every matched output pairing. -/
def buildPMHTrace (cs : PMHCallSite) (ignoreDisabled : Bool)
    (childEvents : List HEvent) : List HEvent :=
  if !cs.enabled && ignoreDisabled then [HEvent.routeAround cs.id]
  else if cs.hasScript then
    let pairs := matchedOutputPairs cs.childOutputPins cs.outputPins
    [HEvent.enterFunction cs.id]
      ++ (if cs.paramMapPinLinked then [HEvent.beginNodeVisit cs.id] else [])
      ++ childEvents
      ++ (if cs.paramMapPinLinked then [HEvent.endNodeVisit cs.id] else [])
      ++ [HEvent.exitFunction cs.id]
      ++ pairs.map (fun v => HEvent.registerPin cs.id v)
  else if cs.sigRequiresRoute then
    -- no script: `!ScriptIsValid() || Signature.bRequiresExecPin`
    [HEvent.routeAround cs.id]
  else []

/-! ## Basic lemmas about pin lookup and mutation -/

theorem findPin_var {pins : List Pin} {v : NVar} {p : Pin}
    (h : findPin pins v = some p) : p.var = v := by
  induction pins with
  | nil => simp [findPin] at h
  | cons q qs ih =>
    by_cases hq : q.var = v
    · simp [findPin, hq] at h
      simpa [← h]
    · simp [findPin, hq] at h
      exact ih h

theorem setLink_findPin_ne {pins : List Pin} {v v' : NVar} {t : LinkTarget}
    (h : v' ≠ v) : findPin (setLink pins v' t) v = findPin pins v := by
  induction pins with
  | nil => simp [setLink]
  | cons q qs ih =>
    by_cases hq : q.var = v'
    · have hqe : q.var ≠ v := by
        rw [hq]; exact h
      simp [setLink, findPin, hq, hqe, h]
    · by_cases hv : q.var = v
      · simp [setLink, findPin, hq, hv, Ne.symm h]
      · simp [setLink, findPin, hq, hv, ih]

theorem setLink_findPin_eq {pins : List Pin} {v : NVar} {p : Pin}
    {t : LinkTarget} (h : findPin pins v = some p) :
    findPin (setLink pins v t) v = some { p with linkedTo := some t } := by
  induction pins with
  | nil => simp [findPin] at h
  | cons q qs ih =>
    by_cases hq : q.var = v
    · simp [findPin, hq] at h
      simp [setLink, findPin, hq, ← h]
    · simp [findPin, hq] at h
      simp [setLink, findPin, hq, ih h]

/-- The caller pins after resolving one input are either unchanged or
the result of linking the pin matching that input's variable. -/
theorem processInput_pins_shape (ctx : AutoBindCtx) (n : InputNode)
    (g : GraphSt) :
    (processInput ctx n g).g.pins = g.pins ∨
      ∃ t, (processInput ctx n g).g.pins = setLink g.pins n.input t := by
  cases hf : findPin g.pins n.input with
  | none =>
    by_cases he : n.exposed <;> by_cases hr : n.required <;>
      simp [processInput, hf, he, hr]
  | some pin =>
    cases hl : pin.linkedTo with
    | some t => simp [processInput, hf, hl]
    | none =>
      cases ha : findAutoBoundInput ctx n pin with
      | some vu =>
        right
        exact ⟨LinkTarget.autoNode pin.var (usageCode vu.2),
          by simp [processInput, hf, hl, ha]⟩
      | none =>
        by_cases hr : n.required <;> by_cases hi : pin.defaultValueIsIgnored <;>
          simp [processInput, hf, hl, ha, hr, hi]

/-- Resolving inputs whose variables all differ from `v` does not
change which pin `v` matches. -/
theorem runInputs_findPin_stable (ctx : AutoBindCtx) {ns : List InputNode}
    {v : NVar} (g : GraphSt) (h : ∀ m ∈ ns, m.input ≠ v) :
    findPin (runInputs ctx ns g).g.pins v = findPin g.pins v := by
  induction ns generalizing g with
  | nil => simp [runInputs]
  | cons m ms ih =>
    have hm : m.input ≠ v := h m (by simp)
    have hms : ∀ x ∈ ms, x.input ≠ v := fun x hx => h x (by simp [hx])
    have hstep : findPin (processInput ctx m g).g.pins v = findPin g.pins v := by
      rcases processInput_pins_shape ctx m g with hsame | ⟨t, hset⟩
      · rw [hsame]
      · rw [hset]
        exact setLink_findPin_ne hm
    calc findPin (runInputs ctx (m :: ms) g).g.pins v
        = findPin (runInputs ctx ms (processInput ctx m g).g).g.pins v := rfl
      _ = findPin (processInput ctx m g).g.pins v := ih _ hms
      _ = findPin g.pins v := hstep

/-- Re-resolving an input against the graph state its own resolution
produced changes nothing: the same entry, diagnostics and error flag
come out and the graph is left untouched (an auto-bound pin is seen as
linked on the second pass). -/
theorem processInput_fixpoint (ctx : AutoBindCtx) (n : InputNode) (g : GraphSt) :
    processInput ctx n (processInput ctx n g).g = processInput ctx n g := by
  cases hf : findPin g.pins n.input with
  | none =>
    by_cases he : n.exposed <;> by_cases hr : n.required <;>
      simp [processInput, hf, he, hr]
  | some pin =>
    cases hl : pin.linkedTo with
    | some t => simp [processInput, hf, hl]
    | none =>
      cases ha : findAutoBoundInput ctx n pin with
      | some vu =>
        obtain ⟨v, u⟩ := vu
        have hf2 := setLink_findPin_eq
          (t := LinkTarget.autoNode pin.var (usageCode u)) hf
        simp [processInput, hf, hl, ha, hf2]
      | none =>
        by_cases hr : n.required <;> by_cases hi : pin.defaultValueIsIgnored <;>
          simp [processInput, hf, hl, ha, hr, hi]

/-- If resolving an input left the graph `g1` unchanged, then
resolving it against any graph `g2` in which the input finds the same
pin produces the same entry, diagnostics and error flag, and leaves
`g2` unchanged as well. -/
theorem processInput_congr_fixed (ctx : AutoBindCtx) (n : InputNode)
    {g1 g2 : GraphSt}
    (hfp : findPin g2.pins n.input = findPin g1.pins n.input)
    (hfix : (processInput ctx n g1).g = g1) :
    processInput ctx n g2 =
      ⟨(processInput ctx n g1).entry, (processInput ctx n g1).diags,
        (processInput ctx n g1).err, g2⟩ := by
  cases hf : findPin g1.pins n.input with
  | none =>
    rw [hf] at hfp
    by_cases he : n.exposed <;> by_cases hr : n.required <;>
      simp [processInput, hf, hfp, he, hr]
  | some pin =>
    rw [hf] at hfp
    cases hl : pin.linkedTo with
    | some t => simp [processInput, hf, hfp, hl]
    | none =>
      cases ha : findAutoBoundInput ctx n pin with
      | some vu =>
        exfalso
        have hnn := congrArg GraphSt.newNodes hfix
        obtain ⟨v, u⟩ := vu
        simp [processInput, hf, hl, ha] at hnn
      | none =>
        by_cases hr : n.required <;> by_cases hi : pin.defaultValueIsIgnored <;>
          simp [processInput, hf, hfp, hl, ha, hr, hi]

/-- The per-node diagnostics are empty, a single stale-call error, or
a single required-input-unbound error carrying the pin the input
matched. -/
theorem processInput_diags_shape (ctx : AutoBindCtx) (n : InputNode)
    (g : GraphSt) :
    (processInput ctx n g).diags = [] ∨
    (processInput ctx n g).diags = [Diag.staleFunctionCall] ∨
    ∃ p, findPin g.pins n.input = some p ∧
      (processInput ctx n g).diags = [Diag.requiredInputUnbound p] := by
  cases hf : findPin g.pins n.input with
  | none =>
    by_cases he : n.exposed <;> by_cases hr : n.required <;>
      simp [processInput, hf, he, hr]
  | some pin =>
    cases hl : pin.linkedTo with
    | some t => simp [processInput, hf, hl]
    | none =>
      cases ha : findAutoBoundInput ctx n pin with
      | some vu =>
        obtain ⟨v, u⟩ := vu
        simp [processInput, hf, hl, ha]
      | none =>
        by_cases hr : n.required <;> by_cases hi : pin.defaultValueIsIgnored <;>
          simp [processInput, hf, hl, ha, hr, hi]

/-- The resolution loop emits exactly one `Inputs` entry per function
input node. -/
theorem runInputs_length (ctx : AutoBindCtx) (ns : List InputNode)
    (g : GraphSt) : (runInputs ctx ns g).entries.length = ns.length := by
  induction ns generalizing g with
  | nil => simp [runInputs]
  | cons n ms ih => simp [runInputs, ih]

/-- The resolution loop is compositional over the declaration order:
the entries and diagnostics for a concatenation are the concatenations
of the parts, threaded through the intermediate graph state. -/
theorem runInputs_append (ctx : AutoBindCtx) (l1 l2 : List InputNode)
    (g : GraphSt) :
    runInputs ctx (l1 ++ l2) g =
      ⟨(runInputs ctx l1 g).entries ++
          (runInputs ctx l2 (runInputs ctx l1 g).g).entries,
        (runInputs ctx l1 g).diags ++
          (runInputs ctx l2 (runInputs ctx l1 g).g).diags,
        (runInputs ctx l1 g).err || (runInputs ctx l2 (runInputs ctx l1 g).g).err,
        (runInputs ctx l2 (runInputs ctx l1 g).g).g⟩ := by
  induction l1 generalizing g with
  | nil => simp [runInputs]
  | cons n ms ih => simp [runInputs, ih, Bool.or_assoc]

/-- Inputs whose variables all differ from a pin's variable never
report a required-input-unbound diagnostic for that pin. -/
theorem runInputs_count_requnbound_zero (ctx : AutoBindCtx)
    {ns : List InputNode} {pin : Pin} (g : GraphSt)
    (h : ∀ m ∈ ns, m.input ≠ pin.var) :
    (runInputs ctx ns g).diags.count (Diag.requiredInputUnbound pin) = 0 := by
  induction ns generalizing g with
  | nil => simp [runInputs]
  | cons m ms ih =>
    have hm : m.input ≠ pin.var := h m (by simp)
    have hms : ∀ x ∈ ms, x.input ≠ pin.var := fun x hx => h x (by simp [hx])
    have hstep :
        (processInput ctx m g).diags.count (Diag.requiredInputUnbound pin) = 0 := by
      rcases processInput_diags_shape ctx m g with h0 | h0 | ⟨p, hp, h0⟩
      · simp [h0]
      · simp [h0]
      · have hpv : p.var = m.input := findPin_var hp
        have hne : p ≠ pin := by
          intro hcontra
          exact hm (by rw [← hpv, hcontra])
        simp [h0, List.count_singleton]
        simp [hne]
    simp only [runInputs, List.count_append]
    rw [hstep, ih _ hms]

/-! ## Claim theorems -/

theorem find?_self_of_mem {v : NVar} {outs : List NVar} (h : v ∈ outs) :
    outs.find? (fun a => v = a) = some v := by
  induction outs with
  | nil => cases h
  | cons x xs ih =>
    by_cases hx : v = x
    · simp [List.find?, hx]
    · have hxs : v ∈ xs := by
        rcases List.mem_cons.mp h with h1 | h1
        · exact absurd h1 hx
        · exact h1
      simpa [List.find?, hx] using ih hxs

/-- C2.  In `Compile`, a declared input with no matching caller slot
splits three ways: exposed inputs report the stale-call-site error;
non-exposed required inputs get a compiled constant for their default
with no error; all other inputs get the absent marker `INDEX_NONE`.
No branch mutates the caller graph. -/
theorem compile_missing_slot_cases (ctx : AutoBindCtx) (n : InputNode)
    (g : GraphSt) (h : findPin g.pins n.input = none) :
    (n.exposed = true →
      processInput ctx n g =
        ⟨IEntry.indexNone, [Diag.staleFunctionCall], true, g⟩) ∧
    (n.exposed = false → n.required = true →
      processInput ctx n g = ⟨IEntry.constHandle n.input, [], false, g⟩) ∧
    (n.exposed = false → n.required = false →
      processInput ctx n g = ⟨IEntry.indexNone, [], false, g⟩) := by
  refine ⟨fun he => ?_, fun he hr => ?_, fun he hr => ?_⟩
  · simp [processInput, h, he]
  · simp [processInput, h, he, hr]
  · simp [processInput, h, he, hr]

/-- Witness for `compile_missing_slot_cases` at a concrete input. -/
theorem compile_missing_slot_cases_witness :
    processInput ⟨none, none, []⟩ ⟨⟨"A", "float"⟩, false, true, false⟩ ⟨[], []⟩ =
      ⟨IEntry.constHandle ⟨"A", "float"⟩, [], false, ⟨[], []⟩⟩ :=
  (compile_missing_slot_cases ⟨none, none, []⟩ ⟨⟨"A", "float"⟩, false, true, false⟩
    ⟨[], []⟩ (by decide)).2.1 rfl rfl

/-- C3.  `FindAutoBoundInput` on an unconnected, auto-bindable input:
an equivalent attribute of the enclosing spawn output contract (or the
update contract only when no spawn contract exists) binds as
`Attribute` — in particular when a system constant also matches, the
attribute wins; only when no attribute matches does an equivalent
system constant bind as `SystemConstant`; otherwise resolution
fails. -/
theorem findAutoBoundInput_attribute_priority (ctx : AutoBindCtx)
    (n : InputNode) (pin : Pin)
    (hunlinked : pin.linkedTo = none) (hcan : n.canAutoBind = true) :
    (∀ outs, ctx.spawnOutputs = some outs → pin.var ∈ outs →
      findAutoBoundInput ctx n pin = some (pin.var, InputUsage.attribute)) ∧
    (ctx.spawnOutputs = none → ∀ outs, ctx.updateOutputs = some outs →
      pin.var ∈ outs →
      findAutoBoundInput ctx n pin = some (pin.var, InputUsage.attribute)) ∧
    (attrLookup ctx pin.var = none → pin.var ∈ ctx.sysConstants →
      findAutoBoundInput ctx n pin = some (pin.var, InputUsage.systemConstant)) ∧
    (attrLookup ctx pin.var = none → pin.var ∉ ctx.sysConstants →
      findAutoBoundInput ctx n pin = none) := by
  refine ⟨?_, ?_, ?_, ?_⟩
  · intro outs hs hmem
    simp [findAutoBoundInput, attrLookup, hunlinked, hcan, hs,
      find?_self_of_mem hmem]
  · intro hs outs hu hmem
    simp [findAutoBoundInput, attrLookup, hunlinked, hcan, hs, hu,
      find?_self_of_mem hmem]
  · intro hattr hmem
    simp [findAutoBoundInput, hunlinked, hcan, hattr, hmem]
  · intro hattr hmem
    simp [findAutoBoundInput, hunlinked, hcan, hattr, hmem]

/-- Witness for `findAutoBoundInput_attribute_priority`: with the
attribute and the system constant both matching, the attribute is
chosen. -/
theorem findAutoBoundInput_attribute_priority_witness :
    findAutoBoundInput ⟨some [⟨"Velocity", "vector"⟩], none, [⟨"Velocity", "vector"⟩]⟩
        ⟨⟨"Velocity", "vector"⟩, true, true, true⟩
        ⟨⟨"Velocity", "vector"⟩, none, false⟩ =
      some (⟨"Velocity", "vector"⟩, InputUsage.attribute) :=
  (findAutoBoundInput_attribute_priority
    ⟨some [⟨"Velocity", "vector"⟩], none, [⟨"Velocity", "vector"⟩]⟩
    ⟨⟨"Velocity", "vector"⟩, true, true, true⟩
    ⟨⟨"Velocity", "vector"⟩, none, false⟩ rfl rfl).1
    [⟨"Velocity", "vector"⟩] rfl (by simp)

/-- C8.  Compiling a call site with neither a function graph nor a
valid signature reports exactly the unknown-function-call error and
never invokes the translator's `FunctionCall` emission step. -/
theorem compile_unresolved_errors_no_emit (ctx : AutoBindCtx)
    (enabled : Bool) (fnName : String) (g : GraphSt) :
    (compileNode ctx Callable.unresolved enabled fnName g).diags =
      [Diag.unknownFunctionCall fnName] ∧
    (compileNode ctx Callable.unresolved enabled fnName g).emitted = false :=
  ⟨rfl, rfl⟩

/-- C10.  The graph-backed `Compile` hands the translator exactly one
`Inputs` entry per function input node, on every control path
(the entry type enforces that each is a compiled pin handle, a
constant handle, or `INDEX_NONE`), and entry production is
compositional in declaration order. -/
theorem compile_each_input_one_entry (ctx : AutoBindCtx) (s : ScriptModel)
    (enabled : Bool) (fnName : String) (g : GraphSt) :
    ((compileNode ctx (Callable.script s) enabled fnName g).inputs.length =
      s.inputNodes.length) ∧
    (∀ l1 l2 : List InputNode, ∀ g2 : GraphSt,
      (runInputs ctx (l1 ++ l2) g2).entries =
        (runInputs ctx l1 g2).entries ++
          (runInputs ctx l2 (runInputs ctx l1 g2).g).entries) := by
  constructor
  · show (runInputs ctx s.inputNodes g).entries.length = s.inputNodes.length
    exact runInputs_length ctx s.inputNodes g
  · intro l1 l2 g2
    rw [runInputs_append]

/-- C6.  Dependency-hash aggregation is deterministic (the embedding
is a pure function of the callable forest, so two aggregations of the
same unedited callable agree under both order and content), and on the
diamond forest A referencing B and C, each referencing D, the
aggregated sequence carries exactly one entry for D, whatever the
compile hashes are. -/
theorem gatherDeps_deterministic_dedup (hA hB hC hD : Nat) :
    (nodeGatherDeps (diamondDeps hA hB hC hD) 4 (some 0) [] =
      nodeGatherDeps (diamondDeps hA hB hC hD) 4 (some 0) []) ∧
    nodeGatherDeps (diamondDeps hA hB hC hD) 4 (some 0) [] =
      [⟨hA, "A"⟩, ⟨hB, "B"⟩, ⟨hD, "D"⟩, ⟨hC, "C"⟩] ∧
    (nodeGatherDeps (diamondDeps hA hB hC hD) 4 (some 0) []).countP
      (fun e => e.path = "D") = 1 := by
  refine ⟨rfl, ?_, ?_⟩
  · rfl
  · rfl

/-- The whole resolution loop is idempotent on the caller graph when
the input list carries no duplicate variables (guaranteed by
`FFindInputNodeOptions::bFilterDuplicates`): a second run over the
graph produced by a first run yields the same entries, diagnostics and
error flag, and leaves the graph untouched. -/
theorem runInputs_idempotent (ctx : AutoBindCtx) :
    ∀ ns : List InputNode, ns.Pairwise (fun a b => a.input ≠ b.input) →
      ∀ g : GraphSt, runInputs ctx ns (runInputs ctx ns g).g = runInputs ctx ns g := by
  intro ns
  induction ns with
  | nil => intro _ g; simp [runInputs]
  | cons n ms ih =>
    intro hpw g
    obtain ⟨hhead, hpw'⟩ := List.pairwise_cons.mp hpw
    have hne : ∀ m ∈ ms, m.input ≠ n.input := fun m hm => (hhead m hm).symm
    have hstep : processInput ctx n (runInputs ctx ms (processInput ctx n g).g).g =
        ⟨(processInput ctx n g).entry, (processInput ctx n g).diags,
          (processInput ctx n g).err,
          (runInputs ctx ms (processInput ctx n g).g).g⟩ := by
      have hstab : findPin (runInputs ctx ms (processInput ctx n g).g).g.pins n.input =
          findPin (processInput ctx n g).g.pins n.input :=
        runInputs_findPin_stable ctx (processInput ctx n g).g hne
      have hfixg : (processInput ctx n (processInput ctx n g).g).g =
          (processInput ctx n g).g := by
        rw [processInput_fixpoint]
      have hcong := processInput_congr_fixed ctx n hstab hfixg
      rw [processInput_fixpoint] at hcong
      exact hcong
    calc runInputs ctx (n :: ms) (runInputs ctx (n :: ms) g).g
        = ⟨(processInput ctx n (runInputs ctx ms (processInput ctx n g).g).g).entry ::
              (runInputs ctx ms
                (processInput ctx n (runInputs ctx ms (processInput ctx n g).g).g).g).entries,
            (processInput ctx n (runInputs ctx ms (processInput ctx n g).g).g).diags ++
              (runInputs ctx ms
                (processInput ctx n (runInputs ctx ms (processInput ctx n g).g).g).g).diags,
            (processInput ctx n (runInputs ctx ms (processInput ctx n g).g).g).err ||
              (runInputs ctx ms
                (processInput ctx n (runInputs ctx ms (processInput ctx n g).g).g).g).err,
            (runInputs ctx ms
              (processInput ctx n (runInputs ctx ms (processInput ctx n g).g).g).g).g⟩ := rfl
      _ = ⟨(processInput ctx n g).entry ::
              (runInputs ctx ms (runInputs ctx ms (processInput ctx n g).g).g).entries,
            (processInput ctx n g).diags ++
              (runInputs ctx ms (runInputs ctx ms (processInput ctx n g).g).g).diags,
            (processInput ctx n g).err ||
              (runInputs ctx ms (runInputs ctx ms (processInput ctx n g).g).g).err,
            (runInputs ctx ms (runInputs ctx ms (processInput ctx n g).g).g).g⟩ := by
          rw [hstep]
      _ = ⟨(processInput ctx n g).entry ::
              (runInputs ctx ms (processInput ctx n g).g).entries,
            (processInput ctx n g).diags ++
              (runInputs ctx ms (processInput ctx n g).g).diags,
            (processInput ctx n g).err ||
              (runInputs ctx ms (processInput ctx n g).g).err,
            (runInputs ctx ms (processInput ctx n g).g).g⟩ := by
          rw [ih hpw' (processInput ctx n g).g]
      _ = runInputs ctx (n :: ms) g := rfl

/-- C4.  Compiling the same graph-backed call site twice with no
structural edits in between yields identical outcomes — the same
diagnostics, the same emission decision and bit-identical `Inputs`
entries — and the second compile performs no graph mutation: no second
synthesized auto-bind input node and no duplicate link, provided the
function input list carries no duplicate variables
(`bFilterDuplicates`). -/
theorem compile_autobind_idempotent (ctx : AutoBindCtx) (s : ScriptModel)
    (enabled : Bool) (fnName : String) (g : GraphSt)
    (hpw : s.inputNodes.Pairwise (fun a b => a.input ≠ b.input)) :
    compileNode ctx (Callable.script s) enabled fnName
        (compileNode ctx (Callable.script s) enabled fnName g).g =
      compileNode ctx (Callable.script s) enabled fnName g := by
  have h := runInputs_idempotent ctx s.inputNodes hpw g
  have hg : (compileNode ctx (Callable.script s) enabled fnName g).g =
      (runInputs ctx s.inputNodes g).g := rfl
  rw [hg]
  show (⟨(if s.deprecated && enabled then [Diag.deprecationWarning] else []) ++
      (runInputs ctx s.inputNodes (runInputs ctx s.inputNodes g).g).diags,
      !(runInputs ctx s.inputNodes (runInputs ctx s.inputNodes g).g).err,
      (runInputs ctx s.inputNodes (runInputs ctx s.inputNodes g).g).entries,
      (runInputs ctx s.inputNodes (runInputs ctx s.inputNodes g).g).g⟩ : CompileRes) =
    compileNode ctx (Callable.script s) enabled fnName g
  rw [h]
  rfl

/-- Witness for `compile_autobind_idempotent`: a concrete call site
whose `Velocity` input auto-binds to a spawn attribute on the first
compile and stays stable on the second. -/
theorem compile_autobind_idempotent_witness :
    compileNode ⟨some [⟨"Velocity", "vector"⟩], none, []⟩
        (Callable.script ⟨false, [⟨⟨"Velocity", "vector"⟩, true, true, true⟩,
          ⟨⟨"Scale", "float"⟩, true, false, false⟩]⟩) true "Func"
        (compileNode ⟨some [⟨"Velocity", "vector"⟩], none, []⟩
          (Callable.script ⟨false, [⟨⟨"Velocity", "vector"⟩, true, true, true⟩,
            ⟨⟨"Scale", "float"⟩, true, false, false⟩]⟩) true "Func"
          ⟨[⟨⟨"Velocity", "vector"⟩, none, false⟩,
            ⟨⟨"Scale", "float"⟩, none, false⟩], []⟩).g =
      compileNode ⟨some [⟨"Velocity", "vector"⟩], none, []⟩
        (Callable.script ⟨false, [⟨⟨"Velocity", "vector"⟩, true, true, true⟩,
          ⟨⟨"Scale", "float"⟩, true, false, false⟩]⟩) true "Func"
        ⟨[⟨⟨"Velocity", "vector"⟩, none, false⟩,
          ⟨⟨"Scale", "float"⟩, none, false⟩], []⟩ :=
  compile_autobind_idempotent ⟨some [⟨"Velocity", "vector"⟩], none, []⟩
    ⟨false, [⟨⟨"Velocity", "vector"⟩, true, true, true⟩,
      ⟨⟨"Scale", "float"⟩, true, false, false⟩]⟩ true "Func"
    ⟨[⟨⟨"Velocity", "vector"⟩, none, false⟩,
      ⟨⟨"Scale", "float"⟩, none, false⟩], []⟩ (by decide)

/-- C1.  In a graph-backed compile, a declared input that has a
matching caller slot, no upstream link, no auto-bind candidate, is
required, and whose slot forbids inline defaults yields exactly one
required-input-unbound diagnostic naming that slot, while resolution
still produces an entry for every declared input (no early abort). -/
theorem compile_reports_required_unbound_exactly_once (ctx : AutoBindCtx)
    (s : ScriptModel) (enabled : Bool) (fnName : String) (g : GraphSt)
    (n : InputNode) (pin : Pin)
    (hpw : s.inputNodes.Pairwise (fun a b => a.input ≠ b.input))
    (hn : n ∈ s.inputNodes)
    (hfind : findPin g.pins n.input = some pin)
    (hunlinked : pin.linkedTo = none)
    (hnoauto : findAutoBoundInput ctx n pin = none)
    (hreq : n.required = true)
    (hforbid : pin.defaultValueIsIgnored = true) :
    (compileNode ctx (Callable.script s) enabled fnName g).diags.count
        (Diag.requiredInputUnbound pin) = 1 ∧
    (compileNode ctx (Callable.script s) enabled fnName g).inputs.length =
      s.inputNodes.length := by
  have hpinvar : pin.var = n.input := findPin_var hfind
  obtain ⟨l1, l2, hsplit⟩ := List.append_of_mem hn
  rw [hsplit] at hpw
  rw [List.pairwise_append] at hpw
  obtain ⟨hpw1, hpw2, hcross⟩ := hpw
  obtain ⟨hhead, hpw2'⟩ := List.pairwise_cons.mp hpw2
  have hl1 : ∀ m ∈ l1, m.input ≠ n.input := fun m hm => hcross m hm n (by simp)
  have hl2 : ∀ m ∈ l2, m.input ≠ n.input := fun m hm => (hhead m hm).symm
  have hl1p : ∀ m ∈ l1, m.input ≠ pin.var := by rw [hpinvar]; exact hl1
  have hl2p : ∀ m ∈ l2, m.input ≠ pin.var := by rw [hpinvar]; exact hl2
  have hg1 : findPin (runInputs ctx l1 g).g.pins n.input = some pin := by
    rw [runInputs_findPin_stable ctx g hl1, hfind]
  have hstep : processInput ctx n (runInputs ctx l1 g).g =
      ⟨IEntry.indexNone, [Diag.requiredInputUnbound pin], true,
        (runInputs ctx l1 g).g⟩ := by
    simp [processInput, hg1, hunlinked, hnoauto, hreq, hforbid]
  have hd2 : (runInputs ctx (n :: l2) (runInputs ctx l1 g).g).diags =
      Diag.requiredInputUnbound pin ::
        (runInputs ctx l2 (runInputs ctx l1 g).g).diags := by
    show (processInput ctx n (runInputs ctx l1 g).g).diags ++
        (runInputs ctx l2
          (processInput ctx n (runInputs ctx l1 g).g).g).diags = _
    rw [hstep]
    rfl
  have hcount : (runInputs ctx s.inputNodes g).diags.count
      (Diag.requiredInputUnbound pin) = 1 := by
    rw [hsplit, runInputs_append]
    show ((runInputs ctx l1 g).diags ++
        (runInputs ctx (n :: l2) (runInputs ctx l1 g).g).diags).count _ = 1
    rw [List.count_append, runInputs_count_requnbound_zero ctx g hl1p, hd2]
    rw [List.count_cons_self, runInputs_count_requnbound_zero ctx _ hl2p]
  constructor
  · show ((if s.deprecated && enabled then [Diag.deprecationWarning] else []) ++
        (runInputs ctx s.inputNodes g).diags).count
        (Diag.requiredInputUnbound pin) = 1
    rw [List.count_append, hcount]
    by_cases hd : (s.deprecated && enabled) = true
    · simp only [if_pos hd]
      simp [List.count_eq_zero]
    · simp only [if_neg hd]
      simp
  · show (runInputs ctx s.inputNodes g).entries.length = s.inputNodes.length
    exact runInputs_length ctx s.inputNodes g

/-- Witness for `compile_reports_required_unbound_exactly_once` at a
concrete call site with one unbindable required input and one optional
input. -/
theorem compile_reports_required_unbound_exactly_once_witness :
    (compileNode ⟨none, none, []⟩
        (Callable.script ⟨false, [⟨⟨"Amount", "float"⟩, true, true, false⟩,
          ⟨⟨"Scale", "float"⟩, true, false, false⟩]⟩) true "Func"
        ⟨[⟨⟨"Amount", "float"⟩, none, true⟩,
          ⟨⟨"Scale", "float"⟩, none, false⟩], []⟩).diags.count
        (Diag.requiredInputUnbound ⟨⟨"Amount", "float"⟩, none, true⟩) = 1 ∧
    (compileNode ⟨none, none, []⟩
        (Callable.script ⟨false, [⟨⟨"Amount", "float"⟩, true, true, false⟩,
          ⟨⟨"Scale", "float"⟩, true, false, false⟩]⟩) true "Func"
        ⟨[⟨⟨"Amount", "float"⟩, none, true⟩,
          ⟨⟨"Scale", "float"⟩, none, false⟩], []⟩).inputs.length = 2 :=
  compile_reports_required_unbound_exactly_once ⟨none, none, []⟩
    ⟨false, [⟨⟨"Amount", "float"⟩, true, true, false⟩,
      ⟨⟨"Scale", "float"⟩, true, false, false⟩]⟩ true "Func"
    ⟨[⟨⟨"Amount", "float"⟩, none, true⟩,
      ⟨⟨"Scale", "float"⟩, none, false⟩], []⟩
    ⟨⟨"Amount", "float"⟩, true, true, false⟩ ⟨⟨"Amount", "float"⟩, none, true⟩
    (by decide) (by decide) (by decide) (by decide) (by decide) (by decide)
    (by decide)

theorem mem_foldl_appendNew {x : Nat} :
    ∀ (l : List Nat) (a : List Nat), x ∈ a →
      x ∈ l.foldl (fun a2 h => if a2.contains h then a2 else a2 ++ [h]) a := by
  intro l
  induction l with
  | nil => intro a h; exact h
  | cons y ys ih =>
    intro a h
    simp only [List.foldl_cons]
    by_cases hy : a.contains y = true
    · rw [if_pos hy]
      exact ih a h
    · rw [if_neg hy]
      exact ih (a ++ [y]) (List.mem_append_left _ h)

theorem mem_foldl_outer {x : Nat} (refsFn : Nat → List Nat) :
    ∀ (l : List Nat) (a : List Nat), x ∈ a →
      x ∈ l.foldl (fun a g =>
        (refsFn g).foldl (fun a2 h => if a2.contains h then a2 else a2 ++ [h]) a) a := by
  intro l
  induction l with
  | nil => intro a h; exact h
  | cons y ys ih =>
    intro a h
    simp only [List.foldl_cons]
    exact ih _ (mem_foldl_appendNew (refsFn y) a h)

theorem mem_expandRefs (refsFn : Nat → List Nat) {x : Nat} {acc : List Nat}
    (h : x ∈ acc) : x ∈ expandRefs refsFn acc :=
  mem_foldl_outer refsFn acc acc h

/-- The transitive reference closure always contains the callable's
own graph. -/
theorem self_mem_getAllReferencedGraphs (refsFn : Nat → List Nat)
    (fuel g : Nat) : g ∈ getAllReferencedGraphs refsFn fuel g := by
  induction fuel with
  | zero => simp [getAllReferencedGraphs]
  | succ k ih => exact mem_expandRefs refsFn ih

/-- C5.  `CanAddToGraph` (with the superclass check passing) rejects
the composition, with the cycle diagnostic, exactly when the target
graph's package appears among the packages of the graphs transitively
referenced by the callable; the closure includes the callable's own
graph; and the target graph is returned structurally untouched. -/
theorem canAddToGraph_rejects_cycles (refsFn : Nat → List Nat)
    (pkg : Nat → Option Nat) (fuel cg : Nat) (target : TargetGraph) :
    ((canAddToGraphFull true refsFn pkg fuel cg target).1 = (false, true) ↔
      ∃ h ∈ getAllReferencedGraphs refsFn fuel cg, ∃ p,
        pkg h = some p ∧ target.package = some p) ∧
    (canAddToGraphFull true refsFn pkg fuel cg target).2 = target ∧
    cg ∈ getAllReferencedGraphs refsFn fuel cg := by
  have hred : canAddToGraphFull true refsFn pkg fuel cg target =
      (if ((getAllReferencedGraphs refsFn fuel cg).map pkg).any
          (fun fp =>
            match fp, target.package with
            | some a, some b => a = b
            | _, _ => false) = true
        then ((false, true), target) else ((true, false), target)) := rfl
  refine ⟨?_, ?_, self_mem_getAllReferencedGraphs refsFn fuel cg⟩
  · by_cases hany : ((getAllReferencedGraphs refsFn fuel cg).map pkg).any
        (fun fp =>
          match fp, target.package with
          | some a, some b => a = b
          | _, _ => false) = true
    · rw [hred, if_pos hany]
      constructor
      · intro _
        rw [List.any_eq_true] at hany
        obtain ⟨fp, hfp, hpred⟩ := hany
        rw [List.mem_map] at hfp
        obtain ⟨h, hh, hfp2⟩ := hfp
        refine ⟨h, hh, ?_⟩
        subst hfp2
        rcases hpk : pkg h with _ | a
        · rw [hpk] at hpred
          simp at hpred
        · rcases htp : target.package with _ | b
          · rw [hpk, htp] at hpred
            simp at hpred
          · rw [hpk, htp] at hpred
            simp only [decide_eq_true_eq] at hpred
            exact ⟨a, rfl, by rw [hpred]⟩
      · intro _
        rfl
    · rw [hred, if_neg hany]
      constructor
      · intro hcontra
        simp at hcontra
      · intro hex
        exfalso
        apply hany
        rw [List.any_eq_true]
        obtain ⟨h, hh, p, hp, htp⟩ := hex
        refine ⟨pkg h, List.mem_map_of_mem pkg hh, ?_⟩
        rw [hp, htp]
        simp
  · rw [hred]
    by_cases hany : ((getAllReferencedGraphs refsFn fuel cg).map pkg).any
        (fun fp =>
          match fp, target.package with
          | some a, some b => a = b
          | _, _ => false) = true
    · rw [if_pos hany]
    · rw [if_neg hany]

theorem exit_before_registers (pre regs : List HEvent) (idn : Nat)
    (hpre : ∀ v, HEvent.registerPin idn v ∉ pre) :
    ∃ i, (pre ++ HEvent.exitFunction idn :: regs).get? i =
        some (HEvent.exitFunction idn) ∧
      ∀ j v, (pre ++ HEvent.exitFunction idn :: regs).get? j =
          some (HEvent.registerPin idn v) → i < j := by
  refine ⟨pre.length, ?_, ?_⟩
  · rw [List.get?_append_right (Nat.le_refl _)]
    simp
  · intro j v hj
    rcases Nat.lt_trichotomy j pre.length with hlt | heq | hgt
    · exfalso
      rw [List.get?_append hlt] at hj
      exact hpre v (List.get?_mem hj)
    · exfalso
      subst heq
      rw [List.get?_append_right (Nat.le_refl _)] at hj
      simp at hj
    · exact hgt

/-- C9.  For an enabled, graph-backed call site, the builder trace
registers the matched caller-facing output pairings strictly after the
`ExitFunction` event for that call site: no output pairing of the call
site is registered while its child scope is still open. -/
theorem buildPMH_register_after_exit (cs : PMHCallSite) (ignoreDisabled : Bool)
    (childEvents : List HEvent)
    (hen : cs.enabled = true) (hs : cs.hasScript = true)
    (hchild : ∀ v, HEvent.registerPin cs.id v ∉ childEvents) :
    ∃ i, (buildPMHTrace cs ignoreDisabled childEvents).get? i =
        some (HEvent.exitFunction cs.id) ∧
      ∀ j v, (buildPMHTrace cs ignoreDisabled childEvents).get? j =
          some (HEvent.registerPin cs.id v) → i < j := by
  have htr : buildPMHTrace cs ignoreDisabled childEvents =
      ([HEvent.enterFunction cs.id]
        ++ (if cs.paramMapPinLinked then [HEvent.beginNodeVisit cs.id] else [])
        ++ childEvents
        ++ (if cs.paramMapPinLinked then [HEvent.endNodeVisit cs.id] else []))
      ++ HEvent.exitFunction cs.id ::
        (matchedOutputPairs cs.childOutputPins cs.outputPins).map
          (fun v => HEvent.registerPin cs.id v) := by
    simp [buildPMHTrace, hen, hs]
  rw [htr]
  apply exit_before_registers
  intro v hv
  by_cases hp : cs.paramMapPinLinked = true
  · simp [hp, List.mem_append] at hv
    exact hchild v hv
  · simp [hp, List.mem_append] at hv
    exact hchild v hv

/-- Witness for `buildPMH_register_after_exit` at a concrete call
site with one matched parameter-map output. -/
theorem buildPMH_register_after_exit_witness :
    ∃ i, (buildPMHTrace ⟨7, true, true, false, true,
        [⟨⟨"Out", paramMapTy⟩, true⟩], [⟨"Out", paramMapTy⟩]⟩ true []).get? i =
        some (HEvent.exitFunction 7) ∧
      ∀ j v, (buildPMHTrace ⟨7, true, true, false, true,
          [⟨⟨"Out", paramMapTy⟩, true⟩], [⟨"Out", paramMapTy⟩]⟩ true []).get? j =
          some (HEvent.registerPin 7 v) → i < j :=
  buildPMH_register_after_exit
    ⟨7, true, true, false, true, [⟨⟨"Out", paramMapTy⟩, true⟩],
      [⟨"Out", paramMapTy⟩]⟩ true [] rfl rfl (fun v => List.not_mem_nil _)

theorem setFlagFirst_find_ne {nm nm' : String} {b : Bool} (h : nm' ≠ nm) :
    ∀ ps : List SwitchPin,
      findSwitchPin nm (setFlagFirst nm' b ps) = findSwitchPin nm ps := by
  intro ps
  induction ps with
  | nil => simp [setFlagFirst, findSwitchPin]
  | cons p rest ih =>
    by_cases hp : p.name = nm'
    · have hpn : p.name ≠ nm := by
        rw [hp]; exact h
      simp [setFlagFirst, findSwitchPin, hp, hpn, h]
    · by_cases hn : p.name = nm
      · simp [setFlagFirst, findSwitchPin, hp, hn, Ne.symm h]
      · simp [setFlagFirst, findSwitchPin, hp, hn, ih]

theorem setFlagFirst_find_eq (nm : String) (b : Bool) :
    ∀ ps : List SwitchPin,
      findSwitchPin nm (setFlagFirst nm b ps) =
        (findSwitchPin nm ps).map
          (fun p => { p with defaultValueIsIgnored := b }) := by
  intro ps
  induction ps with
  | nil => simp [setFlagFirst, findSwitchPin]
  | cons p rest ih =>
    by_cases hp : p.name = nm
    · simp [setFlagFirst, findSwitchPin, hp]
    · simp [setFlagFirst, findSwitchPin, hp, ih]

theorem fold_setFlag_find_ne {nm : String} (f : NVar → Bool) :
    ∀ (l : List NVar) (ps : List SwitchPin), (∀ w ∈ l, w.name ≠ nm) →
      findSwitchPin nm (l.foldl (fun a w => setFlagFirst w.name (f w) a) ps) =
        findSwitchPin nm ps := by
  intro l
  induction l with
  | nil =>
    intro ps _
    rfl
  | cons w ws ih =>
    intro ps h
    simp only [List.foldl_cons]
    rw [ih _ (fun x hx => h x (List.mem_cons_of_mem w hx)),
      setFlagFirst_find_ne (h w (List.mem_cons_self w ws))]

/-- C7 counterexample.  When switch `S` has been removed from the
callee's static-switch input set, the refresh fragment removes the
stale propagated entry but leaves the corresponding pin's
`bDefaultValueIsIgnored` flag set: the flag is not cleared, contrary
to the claim. -/
theorem refreshSwitch_stale_flag_counterexample :
    (refreshSwitchFragment [] [⟨"S", "int"⟩] [⟨"S", true⟩]).1 = [] ∧
    (refreshSwitchFragment [] [⟨"S", "int"⟩] [⟨"S", true⟩]).2 = [⟨"S", true⟩] ∧
    findSwitchPin "S" (refreshSwitchFragment [] [⟨"S", "int"⟩]
      [⟨"S", true⟩]).2 ≠ some ⟨"S", false⟩ := by
  decide

/-- C7 amended.  The refresh fragment silently removes every
propagated entry whose name is none or whose variable is no longer a
switch of the callee; the default-ignored flag of a pin is recomputed
— and hence cleared when no propagated entry survives — exactly for
pins whose name matches a switch input that still exists on the
callee; pins whose names match no current switch input are left
untouched by this pass. -/
theorem refreshSwitch_cleanup_amended (switchInputs props : List NVar)
    (pins : List SwitchPin)
    (hdn : switchInputs.Pairwise (fun a b => a.name ≠ b.name)) :
    (∀ v : NVar, v ∈ (refreshSwitchFragment switchInputs props pins).1 ↔
      (v ∈ props ∧ v.name ≠ "" ∧ v ∈ switchInputs)) ∧
    (∀ w ∈ switchInputs,
      findSwitchPin w.name (refreshSwitchFragment switchInputs props pins).2 =
        (findSwitchPin w.name pins).map (fun p =>
          { p with defaultValueIsIgnored := findPropagatedVariable (cleanupPropagatedSwitchValues switchInputs props) w })) ∧
    (∀ nm : String, (∀ w ∈ switchInputs, w.name ≠ nm) →
      findSwitchPin nm (refreshSwitchFragment switchInputs props pins).2 =
        findSwitchPin nm pins) := by
  refine ⟨?_, ?_, ?_⟩
  · intro v
    show v ∈ cleanupPropagatedSwitchValues switchInputs props ↔ _
    simp [cleanupPropagatedSwitchValues, isValidPropagatedVariable,
      List.mem_filter, not_or]
  · intro w hw
    obtain ⟨l1, l2, hsplit⟩ := List.append_of_mem hw
    rw [hsplit] at hdn
    rw [List.pairwise_append] at hdn
    obtain ⟨hdn1, hdn2, hcross⟩ := hdn
    obtain ⟨hhead, hdn2'⟩ := List.pairwise_cons.mp hdn2
    have hl1 : ∀ m ∈ l1, m.name ≠ w.name := fun m hm => hcross m hm w (by simp)
    have hl2 : ∀ m ∈ l2, m.name ≠ w.name := fun m hm => (hhead m hm).symm
    rw [hsplit]
    show findSwitchPin w.name
        ((l1 ++ w :: l2).foldl (fun ps v => setFlagFirst v.name
          (findPropagatedVariable
            (cleanupPropagatedSwitchValues (l1 ++ w :: l2) props) v) ps) pins) =
      (findSwitchPin w.name pins).map (fun p =>
        { p with defaultValueIsIgnored := findPropagatedVariable (cleanupPropagatedSwitchValues (l1 ++ w :: l2) props) w })
    rw [List.foldl_append, List.foldl_cons]
    rw [fold_setFlag_find_ne _ l2 _ hl2]
    rw [setFlagFirst_find_eq]
    rw [fold_setFlag_find_ne _ l1 _ hl1]
  · intro nm hnm
    show findSwitchPin nm
        (switchInputs.foldl (fun ps v => setFlagFirst v.name
          (findPropagatedVariable
            (cleanupPropagatedSwitchValues switchInputs props) v) ps) pins) = _
    exact fold_setFlag_find_ne _ switchInputs pins hnm

/-- Witness for `refreshSwitch_cleanup_amended`: when switch `S`
changed type on the callee (so the pin name still matches a current
switch input), the stale propagated entry is removed and the pin's
flag is cleared. -/
theorem refreshSwitch_cleanup_amended_witness :
    findSwitchPin "S" (refreshSwitchFragment [⟨"S", "bool"⟩] [⟨"S", "int"⟩]
      [⟨"S", true⟩]).2 = some ⟨"S", false⟩ := by
  rw [(refreshSwitch_cleanup_amended [⟨"S", "bool"⟩] [⟨"S", "int"⟩]
    [⟨"S", true⟩] (by decide)).2.1 ⟨"S", "bool"⟩ (by decide)]
  decide

end NiagaraFunctionCall
